import Mathlib

/-!
Verification of the mochi-flock group-membership view core against its
specification.  The Python sources under `mochi/flock` wrap a C++ core
(`pyflock_common` / `pyflock_client` / `pyflock_server`); the registries,
digest, serialization and RPC protocol live in that core, so they are
modelled here from the specification, while the pure-Python parts
(`view.py`'s `locked()` context manager, `client.py`'s `Client` lifecycle
and `GroupHandle.update`) are embedded from the Python sources.
-/

namespace Flock

/-- A group member: endpoint address plus local provider identifier.
Modelled from the spec: the C++ type behind `pyflock_common.Member` is not
in the Python sources; identity key is the pair `(address, provider_id)`. -/
structure Member where
  address : String
  provider_id : Nat
deriving DecidableEq

/-- A metadata entry: key/value pair of strings, identity key `key`.
Modelled from the spec: the C++ type behind `pyflock_common.Metadata` is not
in the Python sources. -/
structure Metadata where
  key : String
  value : String
deriving DecidableEq

/-- Modelled from the spec: `exists(address, provider_id)` membership test of
the member registry; never raises. -/
def memberExists (r : List Member) (a : String) (p : Nat) : Bool :=
  decide ((⟨a, p⟩ : Member) ∈ r)

/-- Modelled from the spec: `add(address, provider_id)` appends at the end of
the insertion-ordered sequence; adding an existing pair is a no-op. -/
def memberAdd (r : List Member) (a : String) (p : Nat) : List Member :=
  if memberExists r a p then r else r ++ [⟨a, p⟩]

/-- Modelled from the spec: `remove(address, provider_id)` removes by identity
key, compacting the sequence; a no-op when the target is absent. -/
def memberRemoveId (r : List Member) (a : String) (p : Nat) : List Member :=
  r.erase ⟨a, p⟩

/-- Modelled from the spec: `remove(index)` removes by position, compacting;
a no-op when the index is out of range. -/
def memberRemoveIdx (r : List Member) (i : Nat) : List Member :=
  r.eraseIdx i

/-- Modelled from the spec: positional access `at(index)`; `none` encodes the
`OutOfRange` failure. -/
def memberAt (r : List Member) (i : Nat) : Option Member := r[i]?

/-- Modelled from the spec: `count()` of the member registry. -/
def memberCount (r : List Member) : Nat := r.length

/-- Modelled from the spec: `get(key)`; an absent key yields an empty result,
not an error. -/
def metaGet (r : List Metadata) (k : String) : Option String :=
  (r.find? (fun e => decide (e.key = k))).map Metadata.value

/-- Modelled from the spec: `add(key, value)` inserts a new entry at the end,
or overwrites the value of an existing key in place (position unchanged). -/
def metaAdd (r : List Metadata) (k v : String) : List Metadata :=
  if r.any (fun e => decide (e.key = k)) then
    r.map (fun e => if e.key = k then ⟨k, v⟩ else e)
  else r ++ [⟨k, v⟩]

/-- Modelled from the spec: `remove(key)` removes by key, compacting; a no-op
when the key is absent. -/
def metaRemove (r : List Metadata) (k : String) : List Metadata :=
  r.eraseP (fun e => decide (e.key = k))

/-- Modelled from the spec: `remove_at(index)` removes by position. -/
def metaRemoveAt (r : List Metadata) (i : Nat) : List Metadata :=
  r.eraseIdx i

/-- Modelled from the spec: positional access `at(index)` of the metadata
registry; `none` encodes the `OutOfRange` failure. -/
def metaAt (r : List Metadata) (i : Nat) : Option Metadata := r[i]?

/-- Modelled from the spec: `count()` of the metadata registry. -/
def metaCount (r : List Metadata) : Nat := r.length

/-- A group view: one member registry and one metadata registry, both
insertion-ordered.  Modelled from the spec. -/
structure GroupView where
  members : List Member
  metadata : List Metadata
deriving DecidableEq

/-- Injective encoding of a list of naturals, used as the stable hash the
digest folds over the ordered registry contents.  `0` exactly on `[]`. -/
def natListEnc : List Nat → Nat
  | [] => 0
  | n :: ns => Nat.pair n (natListEnc ns) + 1

/-- Stable injective encoding of a string. -/
def strEnc (s : String) : Nat :=
  natListEnc (s.data.map Char.toNat)

/-- Stable injective encoding of a member. -/
def memberEnc (m : Member) : Nat :=
  Nat.pair (strEnc m.address) m.provider_id

/-- Stable injective encoding of a metadata entry. -/
def metaEnc (e : Metadata) : Nat :=
  Nat.pair (strEnc e.key) (strEnc e.value)

/-- Modelled from the spec: `digest()` folds a stable deterministic hash over
the ordered member sequence and then the ordered metadata sequence; the spec
allows a 64-bit *or wider* unsigned integer, realised here as an unbounded
natural so that the spec's invariants (`0` iff empty, any content change
changes the digest) hold exactly. -/
def digest (v : GroupView) : Nat :=
  Nat.pair (natListEnc (v.members.map memberEnc)) (natListEnc (v.metadata.map metaEnc))

/-- An operation on the member registry: add, remove by identity key, or
remove by position.  Modelled from the spec. -/
inductive MemOp where
  | add : String → Nat → MemOp
  | removeId : String → Nat → MemOp
  | removeIdx : Nat → MemOp

/-- Apply one member-registry operation. -/
def applyMemOp (r : List Member) : MemOp → List Member
  | .add a p => memberAdd r a p
  | .removeId a p => memberRemoveId r a p
  | .removeIdx i => memberRemoveIdx r i

/-- Run a sequence of member-registry operations on the empty registry. -/
def runMemOps (ops : List MemOp) : List Member :=
  ops.foldl applyMemOp []

/-- Whether an operation, applied to registry `r`, targets the pair `(a, p)`:
an add or identity-keyed remove of that pair, or a positional remove whose
index currently resolves to that pair. -/
def opTargets (r : List Member) (op : MemOp) (a : String) (p : Nat) : Bool :=
  match op with
  | .add a2 p2 => decide (a2 = a ∧ p2 = p)
  | .removeId a2 p2 => decide (a2 = a ∧ p2 = p)
  | .removeIdx i => decide (memberAt r i = some ⟨a, p⟩)

/-- Escape a string body for the canonical JSON encoding: quote and backslash
are escaped with a backslash, all other characters pass through. -/
def quoteBody : List Char → List Char
  | [] => []
  | c :: cs => if c = '"' ∨ c = '\\' then '\\' :: c :: quoteBody cs else c :: quoteBody cs

/-- Render a JSON string literal. -/
def renderStr (s : String) : List Char := '"' :: (quoteBody s.data ++ ['"'])

/-- Decimal digit character. -/
def digitChar : Nat → Char
  | 0 => '0' | 1 => '1' | 2 => '2' | 3 => '3' | 4 => '4'
  | 5 => '5' | 6 => '6' | 7 => '7' | 8 => '8' | _ => '9'

/-- Decimal rendering of a natural, fuelled for structural recursion. -/
def natCharsAux : Nat → Nat → List Char
  | 0, _ => []
  | f+1, n => if n < 10 then [digitChar n] else natCharsAux f (n / 10) ++ [digitChar (n % 10)]

/-- Decimal rendering of a natural number. -/
def natChars (n : Nat) : List Char := natCharsAux (n + 1) n

/-- Modelled from the spec: one member object of the canonical JSON snapshot,
an object with fields `address` (string) and `provider_id` (unsigned). -/
def renderMember (m : Member) : List Char :=
  '\x7b' :: ("\"address\":".data ++ (renderStr m.address ++
    (",\"provider_id\":".data ++ (natChars m.provider_id ++ ['\x7d']))))

/-- Comma-separated member objects followed by the closing bracket of the
members array. -/
def membersItems : List Member → List Char
  | [] => [']']
  | [m] => renderMember m ++ [']']
  | m :: ms => renderMember m ++ (',' :: membersItems ms)

/-- One metadata key/value pair of the canonical JSON snapshot. -/
def renderMetaEntry (e : Metadata) : List Char :=
  renderStr e.key ++ (':' :: renderStr e.value)

/-- Comma-separated metadata pairs followed by the closing brace of the
metadata object. -/
def metaItems : List Metadata → List Char
  | [] => ['\x7d']
  | [e] => renderMetaEntry e ++ ['\x7d']
  | e :: es => renderMetaEntry e ++ (',' :: metaItems es)

/-- Modelled from the spec: `serialize()` produces the canonical JSON-like
snapshot, an object with an ordered `members` array of member objects and an
ordered `metadata` collection of key/value string pairs. -/
def serializeChars (v : GroupView) : List Char :=
  '\x7b' :: ("\"members\":[".data ++ (membersItems v.members ++
    (",\"metadata\":".data ++ ('\x7b' :: (metaItems v.metadata ++ ['\x7d'])))))

/-- Modelled from the spec: `serialize()` as a string. -/
def serialize (v : GroupView) : String := String.mk (serializeChars v)

/-- Consume an expected literal token; `none` on mismatch. -/
def expectChars : List Char → List Char → Option (List Char)
  | [], l => some l
  | _ :: _, [] => none
  | t :: ts, c :: cs => if c = t then expectChars ts cs else none

/-- Parse the body of a JSON string literal up to the closing quote,
unescaping backslash escapes. -/
def parseStrBody : List Char → Option (List Char × List Char)
  | [] => none
  | c :: cs =>
    if c = '"' then some ([], cs)
    else if c = '\\' then
      match cs with
      | [] => none
      | d :: ds =>
        match parseStrBody ds with
        | none => none
        | some (b, r) => some (d :: b, r)
    else
      match parseStrBody cs with
      | none => none
      | some (b, r) => some (c :: b, r)

/-- Parse a JSON string literal. -/
def parseStringLit : List Char → Option (String × List Char)
  | [] => none
  | c :: cs =>
    if c = '"' then
      match parseStrBody cs with
      | none => none
      | some (b, r) => some (String.mk b, r)
    else none

/-- Greedily accumulate decimal digits. -/
def parseNatAux : List Char → Nat → Nat × List Char
  | [], acc => (acc, [])
  | c :: cs, acc => if c.isDigit then parseNatAux cs (acc * 10 + (c.toNat - 48)) else (acc, c :: cs)

/-- Parse a JSON unsigned decimal numeral (at least one digit). -/
def parseNatLit : List Char → Option (Nat × List Char)
  | [] => none
  | c :: cs => if c.isDigit then some (parseNatAux (c :: cs) 0) else none

/-- Parse one member object of the canonical snapshot. -/
def parseMember (l : List Char) : Option (Member × List Char) :=
  match expectChars ('\x7b' :: "\"address\":".data) l with
  | none => none
  | some r1 =>
    match parseStringLit r1 with
    | none => none
    | some (a, r2) =>
      match expectChars ",\"provider_id\":".data r2 with
      | none => none
      | some r3 =>
        match parseNatLit r3 with
        | none => none
        | some (p, r4) =>
          match expectChars ['\x7d'] r4 with
          | none => none
          | some r5 => some (⟨a, p⟩, r5)

/-- Parse a non-empty comma-separated run of member objects up to the closing
bracket of the members array. -/
def parseMembersItems : Nat → List Char → Option (List Member × List Char)
  | 0, _ => none
  | f+1, l =>
    match parseMember l with
    | none => none
    | some (m, r) =>
      match r with
      | ']' :: r2 => some ([m], r2)
      | ',' :: r2 =>
        match parseMembersItems f r2 with
        | none => none
        | some (ms, r3) => some (m :: ms, r3)
      | _ => none

/-- Parse the members array after its opening bracket. -/
def parseMembers (fuel : Nat) (l : List Char) : Option (List Member × List Char) :=
  if l.head? = some ']' then some ([], l.tail)
  else parseMembersItems fuel l

/-- Parse one metadata key/value pair. -/
def parseMetaEntry (l : List Char) : Option (Metadata × List Char) :=
  match parseStringLit l with
  | none => none
  | some (k, r1) =>
    match r1 with
    | ':' :: r2 =>
      match parseStringLit r2 with
      | none => none
      | some (v, r3) => some (⟨k, v⟩, r3)
    | _ => none

/-- Parse a non-empty comma-separated run of metadata pairs up to the closing
brace of the metadata object. -/
def parseMetaItems : Nat → List Char → Option (List Metadata × List Char)
  | 0, _ => none
  | f+1, l =>
    match parseMetaEntry l with
    | none => none
    | some (e, r) =>
      match r with
      | '\x7d' :: r2 => some ([e], r2)
      | ',' :: r2 =>
        match parseMetaItems f r2 with
        | none => none
        | some (es, r3) => some (e :: es, r3)
      | _ => none

/-- Parse the metadata object after its opening brace. -/
def parseMeta (fuel : Nat) (l : List Char) : Option (List Metadata × List Char) :=
  if l.head? = some '\x7d' then some ([], l.tail)
  else parseMetaItems fuel l

/-- Modelled from the spec: `deserialize` / `from_string` parses the canonical
snapshot; `none` encodes the `ParseError` failure on malformed content. -/
def deserializeChars (l : List Char) : Option GroupView :=
  match expectChars ('\x7b' :: "\"members\":[".data) l with
  | none => none
  | some r1 =>
    match parseMembers l.length r1 with
    | none => none
    | some (ms, r2) =>
      match expectChars ",\"metadata\":".data r2 with
      | none => none
      | some r3 =>
        match r3 with
        | '\x7b' :: r4 =>
          match parseMeta l.length r4 with
          | none => none
          | some (es, r5) =>
            match expectChars ['\x7d'] r5 with
            | none => none
            | some r6 =>
              match r6 with
              | [] => some ⟨ms, es⟩
              | _ => none
        | _ => none

/-- Modelled from the spec: deserialization from the string form. -/
def deserialize (s : String) : Option GroupView := deserializeChars s.data

/-- A file system modelled as an association list from path to contents. -/
abbrev FileStore := List (String × String)

/-- Modelled from the spec: `serialize_to_file(path)` persists the same
canonical encoding to a file. -/
def serialize_to_file (fs : FileStore) (path : String) (v : GroupView) : FileStore :=
  (path, serialize v) :: fs

/-- Read back the contents of a file, `none` when the path is absent. -/
def readStored (fs : FileStore) (path : String) : Option String :=
  (fs.find? (fun e => decide (e.1 = path))).map Prod.snd

/-- Modelled from the spec: `from_file(path)` loads the canonical encoding
from a file and deserializes it. -/
def from_file (fs : FileStore) (path : String) : Option GroupView :=
  match readStored fs path with
  | none => none
  | some s => deserialize s

/-- Response of the provider's `GetView` request.  Modelled from the spec. -/
inductive GetViewResponse where
  | unchanged : GetViewResponse
  | snapshot : String → GetViewResponse
deriving DecidableEq

/-- Modelled from the spec: `GetView(requester_digest)` responds `Unchanged`
when the requester's digest equals the current digest, and otherwise responds
with a serialized snapshot of the authoritative view. -/
def getView (server : GroupView) (requesterDigest : Nat) : GetViewResponse :=
  if requesterDigest = digest server then .unchanged else .snapshot (serialize server)

/-- From `client.py` `GroupHandle.update` delegating to the C++ core, modelled
from the spec: send the cached digest to the provider's `GetView`; on
`Unchanged` keep the cache, on `Snapshot(s)` replace it with `deserialize(s)`;
`none` encodes a `ParseError` on an undecodable snapshot. -/
def updateCache (cache server : GroupView) : Option GroupView :=
  match getView server (digest cache) with
  | .unchanged => some cache
  | .snapshot s => deserialize s

/-- Values of the canonical JSON data model (the subset the snapshot format
uses: strings, unsigned numbers, arrays, and ordered objects). -/
inductive Json where
  | str : String → Json
  | num : Nat → Json
  | arr : List Json → Json
  | obj : List (String × Json) → Json

mutual

/-- Canonical rendering of a JSON value. -/
def renderJson : Json → List Char
  | .str s => renderStr s
  | .num n => natChars n
  | .arr js => '[' :: renderJsonItems js
  | .obj kvs => '\x7b' :: renderJsonPairs kvs

/-- Canonical rendering of JSON array items with the closing bracket. -/
def renderJsonItems : List Json → List Char
  | [] => [']']
  | [j] => renderJson j ++ [']']
  | j :: js => renderJson j ++ (',' :: renderJsonItems js)

/-- Canonical rendering of JSON object pairs with the closing brace. -/
def renderJsonPairs : List (String × Json) → List Char
  | [] => ['\x7d']
  | [(k, v)] => renderStr k ++ (':' :: (renderJson v ++ ['\x7d']))
  | (k, v) :: kvs => renderStr k ++ (':' :: (renderJson v ++ (',' :: renderJsonPairs kvs)))

end

/-- The JSON object a member is encoded as: `address` then `provider_id`. -/
def memberToJson (m : Member) : Json :=
  .obj [("address", .str m.address), ("provider_id", .num m.provider_id)]

/-- Modelled from the spec: acquiring the view's lock; `none` models that the
caller would block because the lock is already held. -/
def lockAcquire (locked : Bool) : Option Bool :=
  if locked then none else some true

/-- Modelled from the spec: releasing the view's lock. -/
def lockRelease (_locked : Bool) : Bool := false

/-- From `view.py` `__locked`: the scoped acquisition acquires the lock,
yields to the body — which either returns normally or raises — and releases
the lock in a `finally` block on both exit paths.  The result pairs the
body's outcome with the final lock state. -/
def lockedScope {ε α : Type} (locked : Bool) (body : Except ε α) :
    Option (Except ε α × Bool) :=
  match lockAcquire locked with
  | none => none
  | some st =>
    match body with
    | .ok a => some (.ok a, lockRelease st)
    | .error e => some (.error e, lockRelease st)

/-- The empty group view. -/
def emptyView : GroupView := ⟨[], []⟩

/-- Modelled from the spec: `copy()` allocates fresh, independent storage for
a duplicate of the view at index `i` of a store of views, returning the new
store and the fresh index. -/
def storeCopy (st : List GroupView) (i : Nat) : List GroupView × Nat :=
  (st ++ [st.getD i emptyView], st.length)

/-- Mutate the view stored at index `i` in place. -/
def storeMutate (st : List GroupView) (i : Nat) (f : GroupView → GroupView) :
    List GroupView :=
  st.set i (f (st.getD i emptyView))

/-- Apply a sequence of mutations to the view stored at index `i`. -/
def storeMutates (st : List GroupView) (i : Nat) (fs : List (GroupView → GroupView)) :
    List GroupView :=
  fs.foldl (fun s f => storeMutate s i f) st

/-- Argument given to `Client.__init__` in `client.py`: an existing engine, an
address string, or anything else. -/
inductive ClientArg where
  | engine : Nat → ClientArg
  | addr : String → ClientArg
  | other : ClientArg

/-- Client state built by `Client.__init__`: the engine it refers to and
whether it owns that engine. -/
structure ClientState where
  engineId : Nat
  owns_engine : Bool
deriving DecidableEq

/-- From `client.py` `Client.__init__`: an `Engine` argument is borrowed
(`_owns_engine = False`); a string address creates a fresh engine that the
client owns; any other argument raises `TypeError` creating no client state.
The world is the list of finalize counts of the engines created so far. -/
def clientInit (world : List Nat) : ClientArg → Except String (List Nat × ClientState)
  | .engine e => .ok (world, ⟨e, false⟩)
  | .addr _ => .ok (world ++ [0], ⟨world.length, true⟩)
  | .other => .error "TypeError"

/-- Finalizing an engine bumps its finalize count. -/
def finalizeEngine (world : List Nat) (e : Nat) : List Nat :=
  world.set e (world.getD e 0 + 1)

/-- From `client.py` `Client.__del__`: the engine is finalized exactly when
the client owns it. -/
def clientDel (world : List Nat) (st : ClientState) : List Nat :=
  if st.owns_engine then finalizeEngine world st.engineId else world

theorem natListEnc_eq_zero {l : List Nat} : natListEnc l = 0 ↔ l = [] := by
  cases l with
  | nil => simp [natListEnc]
  | cons n ns => simp [natListEnc]

theorem natListEnc_inj : ∀ {l₁ l₂ : List Nat}, natListEnc l₁ = natListEnc l₂ → l₁ = l₂ := by
  intro l₁
  induction l₁ with
  | nil =>
    intro l₂ h
    cases l₂ with
    | nil => rfl
    | cons n ns => simp [natListEnc] at h
  | cons n ns ih =>
    intro l₂ h
    cases l₂ with
    | nil => simp [natListEnc] at h
    | cons m ms =>
      simp only [natListEnc, Nat.add_right_cancel_iff] at h
      obtain ⟨h1, h2⟩ := Nat.pair_eq_pair.mp h
      rw [h1, ih h2]

theorem charToNat_inj {a b : Char} (h : a.toNat = b.toNat) : a = b :=
  Char.ext (UInt32.ext h)

theorem strEnc_inj {s t : String} (h : strEnc s = strEnc t) : s = t := by
  have hd : s.data.map Char.toNat = t.data.map Char.toNat := natListEnc_inj h
  have hdata : s.data = t.data := by
    have : Function.Injective Char.toNat := fun a b => charToNat_inj
    exact List.map_injective_iff.mpr this hd
  cases s; cases t; exact congrArg String.mk hdata

theorem memberEnc_inj {m₁ m₂ : Member} (h : memberEnc m₁ = memberEnc m₂) : m₁ = m₂ := by
  obtain ⟨h1, h2⟩ := Nat.pair_eq_pair.mp h
  cases m₁; cases m₂
  simp only [Member.mk.injEq]
  exact ⟨strEnc_inj h1, h2⟩

theorem metaEnc_inj {e₁ e₂ : Metadata} (h : metaEnc e₁ = metaEnc e₂) : e₁ = e₂ := by
  obtain ⟨h1, h2⟩ := Nat.pair_eq_pair.mp h
  cases e₁; cases e₂
  simp only [Metadata.mk.injEq]
  exact ⟨strEnc_inj h1, strEnc_inj h2⟩

theorem digest_inj {v w : GroupView} (h : digest v = digest w) : v = w := by
  obtain ⟨h1, h2⟩ := Nat.pair_eq_pair.mp h
  have hm : v.members = w.members :=
    List.map_injective_iff.mpr (fun a b => memberEnc_inj) (natListEnc_inj h1)
  have hd : v.metadata = w.metadata :=
    List.map_injective_iff.mpr (fun a b => metaEnc_inj) (natListEnc_inj h2)
  cases v; cases w
  simp_all

theorem digest_eq_zero {v : GroupView} :
    digest v = 0 ↔ v.members = [] ∧ v.metadata = [] := by
  constructor
  · intro h
    have h0 : digest v = Nat.pair 0 0 := by rw [h]; simp [Nat.pair]
    obtain ⟨h1, h2⟩ := Nat.pair_eq_pair.mp h0
    exact ⟨by simpa using natListEnc_eq_zero.mp h1, by simpa using natListEnc_eq_zero.mp h2⟩
  · rintro ⟨h1, h2⟩
    simp [digest, h1, h2, natListEnc, Nat.pair]

theorem memberAdd_ne_of_not_exists {r : List Member} {a : String} {p : Nat}
    (h : memberExists r a p = false) : memberAdd r a p ≠ r := by
  intro heq
  rw [memberAdd, h] at heq
  simp only [Bool.false_eq_true, if_false] at heq
  have := congrArg List.length heq
  simp at this

theorem memberRemoveId_ne_of_exists {r : List Member} {a : String} {p : Nat}
    (h : memberExists r a p = true) : memberRemoveId r a p ≠ r := by
  intro heq
  have hmem : (⟨a, p⟩ : Member) ∈ r := by simpa [memberExists] using h
  have hlen := congrArg List.length heq
  rw [memberRemoveId, List.length_erase_of_mem hmem] at hlen
  have hpos : 0 < r.length := List.length_pos.mpr (List.ne_nil_of_mem hmem)
  omega

theorem metaAdd_any_of_get {r : List Metadata} {k w : String}
    (h : metaGet r k = some w) : r.any (fun e => decide (e.key = k)) = true := by
  rw [metaGet, Option.map_eq_some'] at h
  obtain ⟨e, he, -⟩ := h
  have hmem := List.mem_of_find?_eq_some he
  have hpred := List.find?_some he
  exact List.any_eq_true.mpr ⟨e, hmem, hpred⟩

theorem metaAdd_ne_of_absent {r : List Metadata} {k v : String}
    (h : metaGet r k = none) : metaAdd r k v ≠ r := by
  intro heq
  have hnone : r.find? (fun e => decide (e.key = k)) = none := by
    rw [metaGet, Option.map_eq_none'] at h
    exact h
  have hall := List.find?_eq_none.mp hnone
  have hany : r.any (fun e => decide (e.key = k)) = false := by
    cases hca : r.any (fun e => decide (e.key = k)) with
    | false => rfl
    | true =>
      obtain ⟨e, he, hp⟩ := List.any_eq_true.mp hca
      exact absurd hp (hall e he)
  rw [metaAdd, hany] at heq
  simp only [Bool.false_eq_true, if_false] at heq
  have := congrArg List.length heq
  simp at this

theorem map_change_ne : ∀ {r : List Metadata} {k w v : String},
    metaGet r k = some w → v ≠ w →
    r.map (fun e => if e.key = k then ⟨k, v⟩ else e) ≠ r := by
  intro r
  induction r with
  | nil => intro k w v h _; simp [metaGet] at h
  | cons e t ih =>
    intro k w v h hne heq
    rw [List.map_cons] at heq
    by_cases hk : e.key = k
    · have hw : e.value = w := by
        rw [metaGet, List.find?_cons_of_pos _ (by simpa using hk)] at h
        simpa using h
      rw [if_pos hk] at heq
      injection heq with h1 h2
      exact hne ((congrArg Metadata.value h1).trans hw)
    · rw [if_neg hk] at heq
      injection heq with h1 h2
      have htail : metaGet t k = some w := by
        rw [metaGet, List.find?_cons_of_neg _ (by simpa using hk)] at h
        exact h
      exact ih htail hne h2

theorem metaAdd_ne_of_change {r : List Metadata} {k w v : String}
    (h : metaGet r k = some w) (hne : v ≠ w) : metaAdd r k v ≠ r := by
  rw [metaAdd, metaAdd_any_of_get h]
  simp only [if_true]
  exact map_change_ne h hne

theorem metaRemove_ne_of_present {r : List Metadata} {k w : String}
    (h : metaGet r k = some w) : metaRemove r k ≠ r := by
  intro heq
  rw [metaGet, Option.map_eq_some'] at h
  obtain ⟨e, he, -⟩ := h
  obtain ⟨x, l₁, l₂, -, -, hsplit, herase⟩ :=
    List.exists_of_eraseP (List.mem_of_find?_eq_some he) (List.find?_some he)
  rw [metaRemove, herase, hsplit] at heq
  have := congrArg List.length heq
  simp at this

/-- C2: the digest of a view is `0` exactly when the view is empty, and every
content-altering mutation — adding a member not yet present, removing a
present member, adding a metadata entry under a fresh key, changing the value
of an existing key, or removing a present key — changes the digest. -/
theorem digest_zero_iff_empty_and_mutations_change (v : GroupView) :
    (digest v = 0 ↔ v.members = [] ∧ v.metadata = []) ∧
    (∀ a p, memberExists v.members a p = false →
      digest ⟨memberAdd v.members a p, v.metadata⟩ ≠ digest v) ∧
    (∀ a p, memberExists v.members a p = true →
      digest ⟨memberRemoveId v.members a p, v.metadata⟩ ≠ digest v) ∧
    (∀ k val, metaGet v.metadata k = none →
      digest ⟨v.members, metaAdd v.metadata k val⟩ ≠ digest v) ∧
    (∀ k val w, metaGet v.metadata k = some w → val ≠ w →
      digest ⟨v.members, metaAdd v.metadata k val⟩ ≠ digest v) ∧
    (∀ k, metaGet v.metadata k ≠ none →
      digest ⟨v.members, metaRemove v.metadata k⟩ ≠ digest v) := by
  refine ⟨digest_eq_zero, ?_, ?_, ?_, ?_, ?_⟩
  · intro a p h heq
    have := congrArg GroupView.members (digest_inj heq)
    exact memberAdd_ne_of_not_exists h this
  · intro a p h heq
    have := congrArg GroupView.members (digest_inj heq)
    exact memberRemoveId_ne_of_exists h this
  · intro k val h heq
    have := congrArg GroupView.metadata (digest_inj heq)
    exact metaAdd_ne_of_absent h this
  · intro k val w h hne heq
    have := congrArg GroupView.metadata (digest_inj heq)
    exact metaAdd_ne_of_change h hne this
  · intro k h heq
    obtain ⟨w, hw⟩ := Option.ne_none_iff_exists'.mp h
    have := congrArg GroupView.metadata (digest_inj heq)
    exact metaRemove_ne_of_present hw this

/-- Witness for C2 at a concrete one-member, one-entry view. -/
theorem digest_zero_iff_empty_and_mutations_change_witness :
    digest ⟨memberAdd [⟨"a", 1⟩] "b" 2, [⟨"k", "v"⟩]⟩ ≠ digest ⟨[⟨"a", 1⟩], [⟨"k", "v"⟩]⟩ ∧
    digest ⟨memberRemoveId [⟨"a", 1⟩] "a" 1, [⟨"k", "v"⟩]⟩ ≠ digest ⟨[⟨"a", 1⟩], [⟨"k", "v"⟩]⟩ ∧
    digest ⟨[⟨"a", 1⟩], metaAdd [⟨"k", "v"⟩] "k2" "w"⟩ ≠ digest ⟨[⟨"a", 1⟩], [⟨"k", "v"⟩]⟩ ∧
    digest ⟨[⟨"a", 1⟩], metaAdd [⟨"k", "v"⟩] "k" "w"⟩ ≠ digest ⟨[⟨"a", 1⟩], [⟨"k", "v"⟩]⟩ ∧
    digest ⟨[⟨"a", 1⟩], metaRemove [⟨"k", "v"⟩] "k"⟩ ≠ digest ⟨[⟨"a", 1⟩], [⟨"k", "v"⟩]⟩ := by
  have h := digest_zero_iff_empty_and_mutations_change ⟨[⟨"a", 1⟩], [⟨"k", "v"⟩]⟩
  exact ⟨h.2.1 "b" 2 (by decide), h.2.2.1 "a" 1 (by decide),
    h.2.2.2.1 "k2" "w" (by decide), h.2.2.2.2.1 "k" "w" "v" (by decide) (by decide),
    h.2.2.2.2.2 "k" (by decide)⟩

theorem memberExists_iff_mem {r : List Member} {a : String} {p : Nat} :
    memberExists r a p = true ↔ (⟨a, p⟩ : Member) ∈ r := by
  simp [memberExists]

theorem applyMemOp_nodup {r : List Member} (h : r.Nodup) (op : MemOp) :
    (applyMemOp r op).Nodup := by
  cases op with
  | add a p =>
    rw [applyMemOp, memberAdd]
    cases he : memberExists r a p with
    | true => simpa using h
    | false =>
      simp only [Bool.false_eq_true, if_false]
      have hnm : (⟨a, p⟩ : Member) ∉ r := by
        intro hc
        rw [memberExists_iff_mem.mpr hc] at he
        exact Bool.true_eq_false.mp he
      simp [List.nodup_append, h, hnm]
  | removeId a p =>
    exact (List.erase_sublist _ _).nodup h
  | removeIdx i =>
    exact (List.eraseIdx_sublist _ _).nodup h

theorem runMemOps_nodup (ops : List MemOp) : (runMemOps ops).Nodup := by
  rw [runMemOps]
  have haux : ∀ (l : List MemOp) (r : List Member), r.Nodup → (l.foldl applyMemOp r).Nodup := by
    intro l
    induction l with
    | nil => intro r h; simpa using h
    | cons op t ih =>
      intro r h
      rw [List.foldl_cons]
      exact ih _ (applyMemOp_nodup h op)
  exact haux ops [] (by simp)

theorem mem_eraseIdx_iff_of_getElem_ne {α : Type} :
    ∀ (r : List α) (i : Nat) (x : α), r[i]? ≠ some x → (x ∈ r.eraseIdx i ↔ x ∈ r) := by
  intro r
  induction r with
  | nil => intro i x _; simp [List.eraseIdx]
  | cons b t ih =>
    intro i x hne
    cases i with
    | zero =>
      have hbx : b ≠ x := by
        intro hc
        exact hne (by simp [hc])
      rw [List.eraseIdx_cons_zero]
      constructor
      · intro hm; exact List.mem_cons_of_mem b hm
      · intro hm
        rcases List.mem_cons.mp hm with hx | hx
        · exact absurd hx.symm hbx
        · exact hx
    | succ j =>
      have hne2 : t[j]? ≠ some x := by simpa using hne
      rw [List.eraseIdx_cons_succ]
      simp only [List.mem_cons]
      rw [ih j x hne2]

/-- C4: for every sequence of add/remove operations applied to an initially
empty member registry, `count()` equals the number of distinct
`(address, provider_id)` pairs currently present, and `exists(a, p)` is true
exactly when `(a, p)` is currently present — it becomes true on an add of the
pair, false on a remove targeting the pair, and is unchanged by any operation
not targeting the pair. -/
theorem member_registry_count_exists (ops : List MemOp) :
    (memberCount (runMemOps ops) = (runMemOps ops).toFinset.card) ∧
    (∀ a p, memberExists (runMemOps ops) a p = true ↔ (⟨a, p⟩ : Member) ∈ runMemOps ops) ∧
    (∀ a p, memberExists (applyMemOp (runMemOps ops) (.add a p)) a p = true) ∧
    (∀ a p, memberExists (applyMemOp (runMemOps ops) (.removeId a p)) a p = false) ∧
    (∀ a p op, opTargets (runMemOps ops) op a p = false →
      memberExists (applyMemOp (runMemOps ops) op) a p = memberExists (runMemOps ops) a p) := by
  have hnd := runMemOps_nodup ops
  refine ⟨(List.toFinset_card_of_nodup hnd).symm, fun a p => memberExists_iff_mem, ?_, ?_, ?_⟩
  · intro a p
    simp only [applyMemOp, memberAdd]
    cases he : memberExists (runMemOps ops) a p with
    | true => simpa using he
    | false =>
      simp only [Bool.false_eq_true, if_false]
      simp [memberExists]
  · intro a p
    simp only [applyMemOp, memberRemoveId]
    simp [memberExists, hnd.mem_erase_iff]
  · intro a p op ht
    cases op with
    | add a2 p2 =>
      have hne : ¬(a2 = a ∧ p2 = p) := by simpa [opTargets] using ht
      simp only [applyMemOp, memberAdd]
      cases he : memberExists (runMemOps ops) a2 p2 with
      | true => simp
      | false =>
        simp only [Bool.false_eq_true, if_false, memberExists]
        rw [decide_eq_decide]
        simp only [List.mem_append, List.mem_singleton, Member.mk.injEq]
        constructor
        · rintro (hm | ⟨h1, h2⟩)
          · exact hm
          · exact absurd ⟨h1.symm, h2.symm⟩ hne
        · exact Or.inl
    | removeId a2 p2 =>
      have hne : ¬(a2 = a ∧ p2 = p) := by simpa [opTargets] using ht
      simp only [applyMemOp, memberRemoveId, memberExists]
      rw [decide_eq_decide]
      apply List.mem_erase_of_ne
      intro hc
      rw [Member.mk.injEq] at hc
      exact hne ⟨hc.1.symm, hc.2.symm⟩
    | removeIdx i =>
      have hne : (runMemOps ops)[i]? ≠ some ⟨a, p⟩ := by
        simpa [opTargets, memberAt] using ht
      simp only [applyMemOp, memberRemoveIdx, memberExists]
      rw [decide_eq_decide]
      exact mem_eraseIdx_iff_of_getElem_ne _ i _ hne

/-- Witness for C4 on a concrete operation sequence. -/
theorem member_registry_count_exists_witness :
    memberExists
        (applyMemOp (runMemOps [MemOp.add "a" 1, MemOp.add "b" 2, MemOp.removeId "a" 1])
          (MemOp.removeIdx 5)) "b" 2
      = memberExists (runMemOps [MemOp.add "a" 1, MemOp.add "b" 2, MemOp.removeId "a" 1]) "b" 2 :=
  (member_registry_count_exists [MemOp.add "a" 1, MemOp.add "b" 2, MemOp.removeId "a" 1]).2.2.2.2
    "b" 2 (MemOp.removeIdx 5) (by decide)

/-- C7: removing an absent member or an absent metadata key is a no-op that
leaves the registry contents, their order and the digest unchanged; `exists`
on an absent pair is false and `get` on an absent key is empty, neither being
an error. -/
theorem absent_target_spec (v : GroupView) (a : String) (p : Nat) (k : String) :
    (memberExists v.members a p = false →
      memberRemoveId v.members a p = v.members ∧
      digest ⟨memberRemoveId v.members a p, v.metadata⟩ = digest v) ∧
    (metaGet v.metadata k = none →
      metaRemove v.metadata k = v.metadata ∧
      digest ⟨v.members, metaRemove v.metadata k⟩ = digest v) ∧
    (memberExists v.members a p = false ↔ (⟨a, p⟩ : Member) ∉ v.members) ∧
    (metaGet v.metadata k = none ↔ ∀ e ∈ v.metadata, e.key ≠ k) := by
  refine ⟨?_, ?_, by simp [memberExists], ?_⟩
  · intro h
    have hnm : (⟨a, p⟩ : Member) ∉ v.members := by simpa [memberExists] using h
    have heq : memberRemoveId v.members a p = v.members := by
      rw [memberRemoveId]
      exact List.erase_of_not_mem hnm
    exact ⟨heq, by rw [heq]⟩
  · intro h
    have hnone : v.metadata.find? (fun e => decide (e.key = k)) = none := by
      rw [metaGet, Option.map_eq_none'] at h
      exact h
    have heq : metaRemove v.metadata k = v.metadata := by
      rw [metaRemove]
      exact List.eraseP_of_forall_not (List.find?_eq_none.mp hnone)
    exact ⟨heq, by rw [heq]⟩
  · rw [metaGet, Option.map_eq_none', List.find?_eq_none]
    simp

/-- Witness for C7 at a concrete view with an absent pair and an absent key. -/
theorem absent_target_spec_witness :
    (memberRemoveId [⟨"a", 1⟩] "b" 2 = [⟨"a", 1⟩] ∧
      digest ⟨memberRemoveId [⟨"a", 1⟩] "b" 2, [⟨"k", "v"⟩]⟩ = digest ⟨[⟨"a", 1⟩], [⟨"k", "v"⟩]⟩) ∧
    (metaRemove [⟨"k", "v"⟩] "x" = [⟨"k", "v"⟩] ∧
      digest ⟨[⟨"a", 1⟩], metaRemove [⟨"k", "v"⟩] "x"⟩ = digest ⟨[⟨"a", 1⟩], [⟨"k", "v"⟩]⟩) :=
  ⟨(absent_target_spec ⟨[⟨"a", 1⟩], [⟨"k", "v"⟩]⟩ "b" 2 "x").1 (by decide),
   (absent_target_spec ⟨[⟨"a", 1⟩], [⟨"k", "v"⟩]⟩ "b" 2 "x").2.1 (by decide)⟩

/-- C9: positional access `at(i)` fails with OutOfRange (modelled as `none`)
exactly when `i ≥ count()`, and otherwise returns the member stored at
position `i` of the current dense insertion-ordered sequence. -/
theorem positional_access_spec (r : List Member) (i : Nat) :
    (memberAt r i = none ↔ memberCount r ≤ i) ∧
    (∀ h : i < memberCount r, memberAt r i = some (r.get ⟨i, h⟩)) := by
  constructor
  · rw [memberAt, memberCount]
    exact List.getElem?_eq_none_iff
  · intro h
    rw [memberAt, List.getElem?_eq_getElem h]
    simp [List.get_eq_getElem]

/-- Witness for C9 at a concrete in-range index. -/
theorem positional_access_spec_witness :
    memberAt [(⟨"a", 1⟩ : Member)] 0 = some (([(⟨"a", 1⟩ : Member)]).get ⟨0, by decide⟩) :=
  (positional_access_spec [⟨"a", 1⟩] 0).2 (by decide)

theorem expectChars_append : ∀ (ts rest : List Char), expectChars ts (ts ++ rest) = some rest := by
  intro ts
  induction ts with
  | nil => intro rest; rfl
  | cons t ts ih =>
    intro rest
    rw [List.cons_append, expectChars, if_pos rfl]
    exact ih rest

theorem parseStrBody_quoteBody : ∀ (s rest : List Char),
    parseStrBody (quoteBody s ++ ('"' :: rest)) = some (s, rest) := by
  intro s
  induction s with
  | nil =>
    intro rest
    rw [quoteBody, List.nil_append, parseStrBody.eq_def]
    simp
  | cons c cs ih =>
    intro rest
    rw [quoteBody]
    by_cases hc : c = '"' ∨ c = '\\'
    · rw [if_pos hc, List.cons_append, List.cons_append, parseStrBody.eq_def]
      simp [ih rest]
    · obtain ⟨hc1, hc2⟩ := not_or.mp hc
      rw [if_neg hc, List.cons_append, parseStrBody.eq_def]
      simp [hc1, hc2, ih rest]

theorem parseStringLit_renderStr (s : String) (rest : List Char) :
    parseStringLit (renderStr s ++ rest) = some (s, rest) := by
  rw [renderStr, List.cons_append, List.append_assoc, List.singleton_append,
    parseStringLit.eq_def]
  simp [parseStrBody_quoteBody]

theorem digitChar_isDigit {d : Nat} (h : d < 10) : (digitChar d).isDigit = true := by
  interval_cases d <;> rfl

theorem digitChar_toNat {d : Nat} (h : d < 10) : (digitChar d).toNat - 48 = d := by
  interval_cases d <;> rfl

theorem natCharsAux_irrel : ∀ (f g n : Nat), n < f → n < g → natCharsAux f n = natCharsAux g n := by
  intro f
  induction f with
  | zero => intro g n hf hg; exact absurd hf (Nat.not_lt_zero n)
  | succ f ih =>
    intro g n hf hg
    cases g with
    | zero => exact absurd hg (Nat.not_lt_zero n)
    | succ g =>
      simp only [natCharsAux]
      by_cases h10 : n < 10
      · simp [h10]
      · simp only [h10, if_false]
        rw [ih g (n / 10) (by omega) (by omega)]

theorem natChars_small {n : Nat} (h : n < 10) : natChars n = [digitChar n] := by
  rw [natChars]
  simp [natCharsAux, h]

theorem natChars_expand {n : Nat} (h : 10 ≤ n) :
    natChars n = natChars (n / 10) ++ [digitChar (n % 10)] := by
  rw [natChars, natChars]
  have h1 : natCharsAux (n + 1) n = natCharsAux n (n / 10) ++ [digitChar (n % 10)] := by
    simp only [natCharsAux]
    simp [Nat.not_lt.mpr h]
  rw [h1, natCharsAux_irrel n (n / 10 + 1) (n / 10)
    (by have := Nat.div_lt_self (by omega : 0 < n) (by omega : 1 < 10); omega) (by omega)]

theorem natChars_ne_nil (n : Nat) : natChars n ≠ [] := by
  by_cases h : n < 10
  · rw [natChars_small h]; simp
  · rw [natChars_expand (by omega)]; simp

theorem natChars_head_digit :
    ∀ (n : Nat) (c : Char) (t : List Char), natChars n = c :: t → c.isDigit = true := by
  intro n
  induction n using Nat.strong_induction_on with
  | _ n ih =>
    intro c t h
    by_cases h10 : n < 10
    · rw [natChars_small h10] at h
      injection h with h1 h2
      rw [← h1]
      exact digitChar_isDigit h10
    · rw [natChars_expand (by omega)] at h
      cases hnc : natChars (n / 10) with
      | nil => exact absurd hnc (natChars_ne_nil _)
      | cons c2 t2 =>
        rw [hnc, List.cons_append] at h
        injection h with h1 h2
        rw [← h1]
        exact ih (n / 10) (Nat.div_lt_self (by omega) (by omega)) c2 t2 hnc

theorem parseNatAux_stop {rest : List Char}
    (h : ∀ c t, rest = c :: t → c.isDigit = false) (acc : Nat) :
    parseNatAux rest acc = (acc, rest) := by
  cases rest with
  | nil => rfl
  | cons c t => simp [parseNatAux, h c t rfl]

theorem parseNatAux_natChars :
    ∀ (n acc : Nat) (rest : List Char),
      parseNatAux (natChars n ++ rest) acc =
        parseNatAux rest (acc * 10 ^ (natChars n).length + n) := by
  intro n
  induction n using Nat.strong_induction_on with
  | _ n ih =>
    intro acc rest
    by_cases h10 : n < 10
    · rw [natChars_small h10, List.singleton_append]
      simp only [List.length_singleton, pow_one]
      simp [parseNatAux, digitChar_isDigit h10, digitChar_toNat h10]
    · have hmod : n % 10 < 10 := Nat.mod_lt n (by omega)
      rw [natChars_expand (by omega), List.append_assoc, List.singleton_append,
        ih (n / 10) (Nat.div_lt_self (by omega) (by omega)) acc _]
      simp only [parseNatAux, digitChar_isDigit hmod, if_true, digitChar_toNat hmod,
        List.length_append, List.length_singleton]
      have h2 : n / 10 * 10 + n % 10 = n := by omega
      have harith : (acc * 10 ^ (natChars (n / 10)).length + n / 10) * 10 + n % 10 =
          acc * 10 ^ ((natChars (n / 10)).length + 1) + n := by
        calc (acc * 10 ^ (natChars (n / 10)).length + n / 10) * 10 + n % 10
            = acc * (10 ^ (natChars (n / 10)).length * 10) + (n / 10 * 10 + n % 10) := by ring
          _ = acc * 10 ^ ((natChars (n / 10)).length + 1) + n := by rw [h2, pow_succ]
      rw [harith]

theorem parseNatLit_natChars (n : Nat) (rest : List Char)
    (hrest : ∀ c t, rest = c :: t → c.isDigit = false) :
    parseNatLit (natChars n ++ rest) = some (n, rest) := by
  cases hnc : natChars n with
  | nil => exact absurd hnc (natChars_ne_nil n)
  | cons c t =>
    have hd : c.isDigit = true := natChars_head_digit n c t hnc
    have hfin : parseNatAux (c :: (t ++ rest)) 0 = (n, rest) := by
      rw [← List.cons_append, ← hnc, parseNatAux_natChars n 0 rest, parseNatAux_stop hrest]
      simp
    rw [List.cons_append, parseNatLit.eq_def]
    simp only [hd, if_true]
    rw [hfin]

theorem parseMember_renderMember (m : Member) (rest : List Char) :
    parseMember (renderMember m ++ rest) = some (m, rest) := by
  have h0 : renderMember m ++ rest =
      ('\x7b' :: "\"address\":".data) ++ (renderStr m.address ++
        (",\"provider_id\":".data ++ (natChars m.provider_id ++ ('\x7d' :: rest)))) := by
    simp [renderMember, List.append_assoc]
  have hnd : ∀ c t, ('\x7d' :: rest) = c :: t → c.isDigit = false := by
    intro c t h
    injection h with h1 h2
    rw [← h1]
    rfl
  have h4 : expectChars ['\x7d'] ('\x7d' :: rest) = some rest := expectChars_append ['\x7d'] rest
  rw [h0]
  simp only [parseMember, expectChars_append, parseStringLit_renderStr,
    parseNatLit_natChars m.provider_id ('\x7d' :: rest) hnd, h4]

theorem parseMetaEntry_renderMetaEntry (e : Metadata) (rest : List Char) :
    parseMetaEntry (renderMetaEntry e ++ rest) = some (e, rest) := by
  have h0 : renderMetaEntry e ++ rest =
      renderStr e.key ++ (':' :: (renderStr e.value ++ rest)) := by
    simp [renderMetaEntry, List.append_assoc]
  rw [h0]
  simp only [parseMetaEntry, parseStringLit_renderStr]

theorem parseMembersItems_round :
    ∀ (ms : List Member) (fuel : Nat) (rest : List Char), ms ≠ [] → ms.length ≤ fuel →
      parseMembersItems fuel (membersItems ms ++ rest) = some (ms, rest) := by
  intro ms
  induction ms with
  | nil => intro fuel rest h _; exact absurd rfl h
  | cons m ms ih =>
    intro fuel rest hne hlen
    cases fuel with
    | zero => simp at hlen
    | succ f =>
      cases ms with
      | nil =>
        have h0 : membersItems [m] ++ rest = renderMember m ++ (']' :: rest) := by
          simp [membersItems, List.append_assoc]
        rw [h0]
        simp only [parseMembersItems, parseMember_renderMember]
      | cons m2 ms2 =>
        have h0 : membersItems (m :: m2 :: ms2) ++ rest =
            renderMember m ++ (',' :: (membersItems (m2 :: ms2) ++ rest)) := by
          simp [membersItems, List.append_assoc]
        rw [h0]
        simp only [parseMembersItems, parseMember_renderMember,
          ih f rest (by simp) (by simpa using Nat.lt_succ_iff.mp (by simpa using hlen))]

theorem parseMembers_round (ms : List Member) (fuel : Nat) (rest : List Char)
    (hlen : ms.length ≤ fuel) :
    parseMembers fuel (membersItems ms ++ rest) = some (ms, rest) := by
  cases ms with
  | nil =>
    have h0 : membersItems [] ++ rest = ']' :: rest := by simp [membersItems]
    rw [h0, parseMembers]
    simp
  | cons m ms2 =>
    have hhead : (membersItems (m :: ms2) ++ rest).head? = some '\x7b' := by
      cases ms2 <;> simp [membersItems, renderMember]
    rw [parseMembers, hhead]
    rw [if_neg (by decide : ¬(some '\x7b' = some (']' : Char)))]
    exact parseMembersItems_round (m :: ms2) fuel rest (by simp) hlen

theorem parseMetaItems_round :
    ∀ (es : List Metadata) (fuel : Nat) (rest : List Char), es ≠ [] → es.length ≤ fuel →
      parseMetaItems fuel (metaItems es ++ rest) = some (es, rest) := by
  intro es
  induction es with
  | nil => intro fuel rest h _; exact absurd rfl h
  | cons e es ih =>
    intro fuel rest hne hlen
    cases fuel with
    | zero => simp at hlen
    | succ f =>
      cases es with
      | nil =>
        have h0 : metaItems [e] ++ rest = renderMetaEntry e ++ ('\x7d' :: rest) := by
          simp [metaItems, List.append_assoc]
        rw [h0]
        simp only [parseMetaItems, parseMetaEntry_renderMetaEntry]
      | cons e2 es2 =>
        have h0 : metaItems (e :: e2 :: es2) ++ rest =
            renderMetaEntry e ++ (',' :: (metaItems (e2 :: es2) ++ rest)) := by
          simp [metaItems, List.append_assoc]
        rw [h0]
        simp only [parseMetaItems, parseMetaEntry_renderMetaEntry,
          ih f rest (by simp) (by simpa using Nat.lt_succ_iff.mp (by simpa using hlen))]

theorem parseMeta_round (es : List Metadata) (fuel : Nat) (rest : List Char)
    (hlen : es.length ≤ fuel) :
    parseMeta fuel (metaItems es ++ rest) = some (es, rest) := by
  cases es with
  | nil =>
    have h0 : metaItems [] ++ rest = '\x7d' :: rest := by simp [metaItems]
    rw [h0, parseMeta]
    simp
  | cons e es2 =>
    have hhead : (metaItems (e :: es2) ++ rest).head? = some '"' := by
      cases es2 <;> simp [metaItems, renderMetaEntry, renderStr]
    rw [parseMeta, hhead]
    rw [if_neg (by decide : ¬(some '"' = some ('\x7d' : Char)))]
    exact parseMetaItems_round (e :: es2) fuel rest (by simp) hlen

theorem membersItems_length : ∀ ms : List Member, ms.length ≤ (membersItems ms).length := by
  intro ms
  induction ms with
  | nil => simp [membersItems]
  | cons m ms ih =>
    cases ms with
    | nil => simp [membersItems]
    | cons m2 ms2 =>
      simp only [membersItems, List.length_append, List.length_cons]
      simp only [List.length_cons] at ih
      omega

theorem metaItems_length : ∀ es : List Metadata, es.length ≤ (metaItems es).length := by
  intro es
  induction es with
  | nil => simp [metaItems]
  | cons e es ih =>
    cases es with
    | nil => simp [metaItems]
    | cons e2 es2 =>
      simp only [metaItems, List.length_append, List.length_cons]
      simp only [List.length_cons] at ih
      omega

theorem deserializeChars_serializeChars (v : GroupView) :
    deserializeChars (serializeChars v) = some v := by
  obtain ⟨ms, es⟩ := v
  have hsplit : serializeChars ⟨ms, es⟩ = ('\x7b' :: "\"members\":[".data) ++
      (membersItems ms ++ (",\"metadata\":".data ++
        ('\x7b' :: (metaItems es ++ ['\x7d'])))) := by
    simp [serializeChars, List.append_assoc]
  have hfuel1 : ms.length ≤ (serializeChars (⟨ms, es⟩ : GroupView)).length := by
    have := membersItems_length ms
    rw [hsplit]
    simp only [List.length_append, List.length_cons]
    omega
  have hfuel2 : es.length ≤ (serializeChars (⟨ms, es⟩ : GroupView)).length := by
    have := metaItems_length es
    rw [hsplit]
    simp only [List.length_append, List.length_cons]
    omega
  have h1 : expectChars ('\x7b' :: "\"members\":[".data) (serializeChars ⟨ms, es⟩)
      = some (membersItems ms ++ (",\"metadata\":".data ++
          ('\x7b' :: (metaItems es ++ ['\x7d'])))) := by
    rw [hsplit]
    exact expectChars_append _ _
  have h2 : expectChars ['\x7d'] ['\x7d'] = some [] := rfl
  simp only [deserializeChars, h1, parseMembers_round ms _ _ hfuel1, expectChars_append,
    parseMeta_round es _ _ hfuel2, h2]

/-- C1: serializing a view and deserializing the result — through the string
form or through a file — yields a view with exactly the same ordered member
sequence, the same ordered metadata entries, and an equal digest. -/
theorem serialize_round_trip (v : GroupView) (fs : FileStore) (path : String) :
    (∃ w, deserialize (serialize v) = some w ∧
      w.members = v.members ∧ w.metadata = v.metadata ∧ digest w = digest v) ∧
    (∃ w, from_file (serialize_to_file fs path v) path = some w ∧
      w.members = v.members ∧ w.metadata = v.metadata ∧ digest w = digest v) := by
  have hs : deserialize (serialize v) = some v := by
    rw [serialize, deserialize]
    exact deserializeChars_serializeChars v
  constructor
  · exact ⟨v, hs, rfl, rfl, rfl⟩
  · refine ⟨v, ?_, rfl, rfl, rfl⟩
    rw [from_file, serialize_to_file, readStored]
    simp [List.find?_cons_of_pos, hs]

/-- C3: a successfully completing `update()` leaves the cached view exactly as
it was when the provider's digest equals the cached digest sent (`Unchanged`),
and otherwise replaces it with the deserialization of the serialized snapshot
carried by the response, so afterwards the cached digest equals the server's
digest. -/
theorem update_spec (cache server : GroupView) :
    (digest cache = digest server → updateCache cache server = some cache) ∧
    (digest cache ≠ digest server →
      updateCache cache server = deserialize (serialize server) ∧
      updateCache cache server = some server) ∧
    (∀ w, updateCache cache server = some w → digest w = digest server) := by
  have hs : deserialize (serialize server) = some server := by
    rw [serialize, deserialize]
    exact deserializeChars_serializeChars server
  refine ⟨?_, ?_, ?_⟩
  · intro h
    rw [updateCache, getView, if_pos h]
  · intro h
    rw [updateCache, getView, if_neg h]
    exact ⟨rfl, hs⟩
  · intro w hw
    by_cases h : digest cache = digest server
    · simp only [updateCache, getView, if_pos h] at hw
      injection hw with hw2
      rw [← hw2, h]
    · simp only [updateCache, getView, if_neg h, hs] at hw
      injection hw with hw2
      rw [← hw2]

/-- Witness for C3: a client with an empty cached view fetching from a server
whose view holds one member, then an up-to-date client seeing `Unchanged`. -/
theorem update_spec_witness :
    updateCache ⟨[], []⟩ ⟨[⟨"a", 1⟩], []⟩ = some ⟨[⟨"a", 1⟩], []⟩ ∧
    updateCache ⟨[⟨"a", 1⟩], []⟩ ⟨[⟨"a", 1⟩], []⟩ = some ⟨[⟨"a", 1⟩], []⟩ :=
  ⟨((update_spec ⟨[], []⟩ ⟨[⟨"a", 1⟩], []⟩).2.1 (by decide)).2,
   (update_spec ⟨[⟨"a", 1⟩], []⟩ ⟨[⟨"a", 1⟩], []⟩).1 (by decide)⟩

theorem renderJson_memberToJson (m : Member) : renderJson (memberToJson m) = renderMember m := by
  rw [memberToJson]
  simp only [renderJson, renderJsonPairs]
  rw [renderMember]
  have ha : "\"address\":".data = renderStr "address" ++ [':'] := by decide
  have hp : ",\"provider_id\":".data = ',' :: (renderStr "provider_id" ++ [':']) := by decide
  rw [ha, hp]
  simp [List.append_assoc]

theorem renderJsonItems_members :
    ∀ ms : List Member, renderJsonItems (ms.map memberToJson) = membersItems ms := by
  intro ms
  induction ms with
  | nil => simp [renderJsonItems, membersItems]
  | cons m ms ih =>
    cases ms with
    | nil =>
      simp only [List.map_cons, List.map_nil]
      simp only [renderJsonItems, membersItems]
      rw [renderJson_memberToJson]
    | cons m2 ms2 =>
      simp only [List.map_cons] at ih ⊢
      simp only [renderJsonItems, membersItems]
      rw [renderJson_memberToJson, ih]

theorem renderJsonPairs_meta :
    ∀ es : List Metadata,
      renderJsonPairs (es.map (fun e => (e.key, Json.str e.value))) = metaItems es := by
  intro es
  induction es with
  | nil => simp [renderJsonPairs, metaItems]
  | cons e es ih =>
    cases es with
    | nil =>
      simp only [List.map_cons, List.map_nil]
      simp only [renderJsonPairs, metaItems, renderMetaEntry, renderJson]
      simp [List.append_assoc]
    | cons e2 es2 =>
      simp only [List.map_cons] at ih ⊢
      simp only [renderJsonPairs, metaItems, renderMetaEntry, renderJson]
      rw [ih]
      simp [List.append_assoc]

/-- C8: the string `serialize()` produces is exactly the canonical JSON
rendering of an object whose `members` field is the array of member objects —
each an object holding the member's `address` (string) and `provider_id`
(unsigned integer) — in insertion order, and whose `metadata` field is the
ordered collection of key/value string pairs in insertion order. -/
theorem serialize_json_structure (v : GroupView) :
    serializeChars v = renderJson (Json.obj
      [("members", Json.arr (v.members.map memberToJson)),
       ("metadata", Json.obj (v.metadata.map (fun e => (e.key, Json.str e.value))))]) := by
  simp only [renderJson, renderJsonPairs]
  rw [renderJsonItems_members, renderJsonPairs_meta, serializeChars]
  have hm : "\"members\":[".data = renderStr "members" ++ [':', '['] := by decide
  have hd : ",\"metadata\":".data = ',' :: (renderStr "metadata" ++ [':']) := by decide
  rw [hm, hd]
  simp [List.append_assoc]

/-- C5: the scoped `locked()` acquisition releases the lock on every exit
path — the body's outcome (normal return or raised exception) is propagated,
the final lock state is released, and the lock can be acquired again
afterwards. -/
theorem locked_scope_spec {ε α : Type} (body : Except ε α) :
    lockedScope false body = some (body, false) ∧
    (∀ out st, lockedScope false body = some (out, st) → lockAcquire st = some true) ∧
    (∀ e : ε, @lockedScope ε α false (Except.error e) = some (Except.error e, false)) := by
  refine ⟨?_, ?_, ?_⟩
  · cases body <;> rfl
  · intro out st h
    cases body with
    | ok a =>
      have h2 : some ((Except.ok a : Except ε α), false) = some (out, st) := h
      injection h2 with h3
      have h6 : (false : Bool) = st := congrArg Prod.snd h3
      rw [← h6]
      rfl
    | error e =>
      have h2 : some ((Except.error e : Except ε α), false) = some (out, st) := h
      injection h2 with h3
      have h6 : (false : Bool) = st := congrArg Prod.snd h3
      rw [← h6]
      rfl
  · intro e
    rfl

/-- Witness for C5: a raising body still leaves the lock released and
re-acquirable. -/
theorem locked_scope_spec_witness :
    lockAcquire false = some true ∧
    lockedScope false (Except.error "boom" : Except String Unit)
      = some (Except.error "boom", false) := by
  have h := locked_scope_spec (Except.error "boom" : Except String Unit)
  exact ⟨h.2.1 (Except.error "boom") false h.1, h.1⟩

theorem storeMutates_getD_ne :
    ∀ (fs : List (GroupView → GroupView)) (s : List GroupView) (i j : Nat), i ≠ j →
      (storeMutates s i fs).getD j emptyView = s.getD j emptyView := by
  intro fs
  induction fs with
  | nil => intro s i j _; rfl
  | cons f fs ih =>
    intro s i j hne
    rw [storeMutates, List.foldl_cons]
    have hstep : (storeMutate s i f).getD j emptyView = s.getD j emptyView := by
      rw [storeMutate, List.getD_eq_getElem?_getD, List.getElem?_set_ne hne,
        ← List.getD_eq_getElem?_getD]
    calc (List.foldl (fun s f => storeMutate s i f) (storeMutate s i f) fs).getD j emptyView
        = (storeMutates (storeMutate s i f) i fs).getD j emptyView := rfl
      _ = (storeMutate s i f).getD j emptyView := ih (storeMutate s i f) i j hne
      _ = s.getD j emptyView := hstep

/-- C6: `copy()` yields a deep, independent view: the copy lives at a fresh
index holding the same contents, any sequence of mutations applied to the
copy leaves the source — and hence its member count, metadata count and
digest — unchanged, and any sequence of mutations applied to the source
leaves the copy unchanged. -/
theorem copy_independent (st : List GroupView) (i : Nat) (h : i < st.length)
    (fs : List (GroupView → GroupView)) :
    (storeCopy st i).2 ≠ i ∧
    (storeCopy st i).1.getD (storeCopy st i).2 emptyView = st.getD i emptyView ∧
    (storeMutates (storeCopy st i).1 (storeCopy st i).2 fs).getD i emptyView
      = st.getD i emptyView ∧
    memberCount ((storeMutates (storeCopy st i).1 (storeCopy st i).2 fs).getD i
      emptyView).members = memberCount (st.getD i emptyView).members ∧
    metaCount ((storeMutates (storeCopy st i).1 (storeCopy st i).2 fs).getD i
      emptyView).metadata = metaCount (st.getD i emptyView).metadata ∧
    digest ((storeMutates (storeCopy st i).1 (storeCopy st i).2 fs).getD i emptyView)
      = digest (st.getD i emptyView) ∧
    (storeMutates (storeCopy st i).1 i fs).getD (storeCopy st i).2 emptyView
      = (storeCopy st i).1.getD (storeCopy st i).2 emptyView := by
  have hne : (storeCopy st i).2 ≠ i := by
    rw [storeCopy]
    omega
  have hcopy : (storeCopy st i).1.getD (storeCopy st i).2 emptyView = st.getD i emptyView := by
    rw [storeCopy, List.getD_eq_getElem?_getD, List.getElem?_concat_length]
    rfl
  have hsrc : (storeMutates (storeCopy st i).1 (storeCopy st i).2 fs).getD i emptyView
      = st.getD i emptyView := by
    rw [storeMutates_getD_ne fs (storeCopy st i).1 (storeCopy st i).2 i hne]
    rw [storeCopy, List.getD_eq_getElem?_getD, List.getElem?_append_left h,
      ← List.getD_eq_getElem?_getD]
  refine ⟨hne, hcopy, hsrc, ?_, ?_, ?_, ?_⟩
  · rw [hsrc]
  · rw [hsrc]
  · rw [hsrc]
  · exact storeMutates_getD_ne fs (storeCopy st i).1 i (storeCopy st i).2 (fun hc => hne hc.symm)

/-- Witness for C6: a one-view store whose copy is mutated by adding a
member. -/
theorem copy_independent_witness :
    (storeMutates (storeCopy [emptyView] 0).1 (storeCopy [emptyView] 0).2
        [fun v => ⟨memberAdd v.members "a" 1, v.metadata⟩]).getD 0 emptyView
      = ([emptyView] : List GroupView).getD 0 emptyView :=
  (copy_independent [emptyView] 0 (by decide)
    [fun v => ⟨memberAdd v.members "a" 1, v.metadata⟩]).2.2.1

/-- C10: constructing a client from a string address creates a fresh engine
the client owns, and destroying the client finalizes that engine exactly
once; constructing from an existing engine borrows it and destruction leaves
it untouched; any other argument raises `TypeError` and creates no client
state. -/
theorem client_lifecycle_spec (world : List Nat) (s : String) (e : Nat) :
    (∃ w2 st, clientInit world (.addr s) = .ok (w2, st) ∧ st.owns_engine = true ∧
      w2.getD st.engineId 0 = 0 ∧ (clientDel w2 st).getD st.engineId 0 = 1) ∧
    (clientInit world (.engine e) = .ok (world, ⟨e, false⟩) ∧
      clientDel world ⟨e, false⟩ = world) ∧
    (clientInit world .other = .error "TypeError") := by
  refine ⟨⟨world ++ [0], ⟨world.length, true⟩, rfl, rfl, ?_, ?_⟩, ⟨rfl, rfl⟩, rfl⟩
  · rw [List.getD_eq_getElem?_getD, List.getElem?_concat_length]
    rfl
  · have hget : (world ++ [0]).getD world.length 0 = 0 := by
      rw [List.getD_eq_getElem?_getD, List.getElem?_concat_length]
      rfl
    rw [clientDel, if_pos rfl, finalizeEngine, hget, List.getD_eq_getElem?_getD,
      List.getElem?_set_self (by simp)]
    rfl
